import Mathlib

/-!
Verification of the `micro` URL-path router against its specification.

The router's orchestration code (`Router.Handle`, `Router.Lookup`,
`Router.allowed` in router.go, and `App.dispatchRequest` / `App.ServeHTTP`
in app.go, `Context.reset` / `Context.Set` / `Context.Get` in context.go)
is embedded shallowly below.  The radix-tree node code (`node.addRoute`,
`node.getValue`, `node.findCaseInsensitivePath`) and the path normalizer
`CleanPath` are not part of the sources; they are abstracted by their
observable behavior (a `Tree` record of functions) or modelled from the
specification where a claim needs them concretely.

Strings coming from HTTP requests are ASCII in every case relevant here;
Go's byte-level operations are modelled on `List Char`.
-/

/-- A single extracted path parameter: `Param{Key, Value string}`. -/
structure Param where
  key : String
  value : String
deriving DecidableEq, Repr

/-- `Params` is the ordered slice of parameters produced by a lookup. -/
abbrev Params := List Param

/-- `Route{Method, Path string; Handler HandlerFunc}`; the handler is an
opaque reference, modelled by a `Nat` identifier. -/
structure Route where
  method : String
  path : String
  handler : Nat
deriving DecidableEq, Repr

/-- Modelled from the spec: the radix-tree node type (`node` in tree.go) is
not among the sources; only its callers are.  For the dispatch and
allowed-methods claims all that matters is its observable lookup behavior,
so a tree is abstracted as the pair of functions the callers invoke:
`getValue(path) -> (route, params, trailingSlashRecommended)` and
`findCaseInsensitivePath(path, fixTrailingSlash) -> (fixedPath, found)`. -/
structure RTree where
  getValue : String → Option Route × Params × Bool
  findCaseInsensitivePath : String → Bool → String × Bool

/-- The route table: `Router{trees map[string]*node}`.  The Go map is
modelled as an association list with pairwise-distinct keys in use. -/
structure Router where
  trees : List (String × RTree)

/-- Go map read `trees[method]`: first binding of the key, if any. -/
def lookupTree {α : Type} (ts : List (String × α)) (m : String) : Option α :=
  (ts.find? (fun p => p.1 == m)).map Prod.snd

/-- Go's byte-wise string comparison `<`, on character lists (for UTF-8
encoded text the byte-wise and character-wise lexicographic orders agree). -/
def strLtB : List Char → List Char → Bool
  | [], [] => false
  | [], _ :: _ => true
  | _ :: _, [] => false
  | a :: as, b :: bs =>
    if a < b then true
    else if b < a then false
    else strLtB as bs

/-- Go's `s1 < s2` on strings. -/
def strLt (a b : String) : Bool := strLtB a.data b.data

/-- One step of the inner loop of the insertion sort in `Router.allowed`
(`for j := i; j > 0 && allowed[j] < allowed[j-1]; j--` with swaps): the
element bubbles left past strictly greater elements and settles after every
element not greater than it. -/
def insertAllowed (a : String) : List String → List String
  | [] => [a]
  | b :: l => if strLt a b then a :: b :: l else b :: insertAllowed a l

/-- The insertion sort performed in `Router.allowed` over the collected
method names, processing elements left to right. -/
def sortAllowed (l : List String) : List String :=
  l.foldl (fun acc a => insertAllowed a acc) []

/-- `strings.Join(allowed, ", ")`. -/
def joinComma : List String → String
  | [] => ""
  | [s] => s
  | s :: rest => s ++ ", " ++ joinComma rest

/-- The list of methods collected by the loop in `Router.allowed` before
`OPTIONS` is appended: for `path == "*"` every registered method except
`OPTIONS`; otherwise every method other than the requested one and
`OPTIONS` whose tree matches `path`. -/
def allowedList (r : Router) (path reqMethod : String) : List String :=
  if path == "*" then
    (r.trees.filter (fun p => p.1 != "OPTIONS")).map Prod.fst
  else
    (r.trees.filter
      (fun p => p.1 != reqMethod && p.1 != "OPTIONS"
        && ((p.2.getValue path).1).isSome)).map Prod.fst

/-- `Router.allowed(path, reqMethod)`: collect the methods, and if any were
found append `OPTIONS`, insertion-sort, and join with `", "`; otherwise
return the empty string. -/
def allowed (r : Router) (path reqMethod : String) : String :=
  let l := allowedList r path reqMethod
  if l.length > 0 then joinComma (sortAllowed (l ++ ["OPTIONS"])) else ""

/-- `Router.Lookup(method, path)`: delegate to the method's root, or
return `(nil, nil, false)` when the method has no tree. -/
def Lookup (r : Router) (method path : String) : Option Route × Params × Bool :=
  match lookupTree r.trees method with
  | some root => root.getValue path
  | none => (none, ([] : Params), false)

/-- The app options consulted by `dispatchRequest`. -/
structure Options where
  redirectTrailingSlash : Bool
  redirectFixedPath : Bool
  handleMethodNotAllowed : Bool
deriving DecidableEq, Repr

/-- The outcome of dispatching one request: the handler is invoked with
bound parameters, or an HTTP redirect is issued, or a 405 with an `Allow`
header, or a 404. -/
inductive Outcome where
  | handled (route : Route) (ps : Params)
  | redirect (url : String) (code : Nat)
  | methodNotAllowed (allow : String)
  | notFound
deriving DecidableEq, Repr

/-- `true` exactly for redirect outcomes. -/
def Outcome.isRedirect : Outcome → Bool
  | .redirect _ _ => true
  | _ => false

/-- The redirect status code computed in `dispatchRequest`:
`code := http.StatusMovedPermanently; if req.Method != http.MethodGet
{ code = http.StatusPermanentRedirect }`. -/
def redirectCode (method : String) : Nat :=
  if method == "GET" then 301 else 308

/-- The trailing-slash-toggled redirect target of `dispatchRequest`:
strip a trailing `/` from a path longer than one byte, else append one. -/
def tsrPath (path : String) : String :=
  if path.length > 1 && (path.data.getLast? == some '/') then
    String.mk path.data.dropLast
  else
    path ++ "/"

/-- The common fall-through tail of `dispatchRequest` (lines 143-151 of
app.go): when `HandleMethodNotAllowed` is set and `allowed` is non-empty,
respond 405 with the `Allow` header; otherwise respond 404. -/
def dispatchFallback (opts : Options) (r : Router) (path method : String) : Outcome :=
  if opts.handleMethodNotAllowed then
    let allow := allowed r path method
    if allow != "" then Outcome.methodNotAllowed allow else Outcome.notFound
  else
    Outcome.notFound

/-- Split a character sequence at every `/`, keeping empty pieces, as Go
byte-wise scanning of a path does. -/
def splitSlash : List Char → List (List Char)
  | [] => [[]]
  | c :: rest =>
    match splitSlash rest with
    | [] => [[]]
    | s :: ss => if c = '/' then [] :: s :: ss else (c :: s) :: ss

/-- Process the path segments left to right against an accumulator holding
the already-resolved segments in reverse: empty segments (from repeated
slashes) and `.` are dropped, `..` pops the previous segment (a no-op at
root since `List.tail [] = []`), anything else is kept. -/
def collapseSegs : List (List Char) → List (List Char) → List (List Char)
  | [], acc => acc.reverse
  | s :: rest, acc =>
    if s = [] ∨ s = ['.'] then collapseSegs rest acc
    else if s = ['.', '.'] then collapseSegs rest acc.tail
    else collapseSegs rest (s :: acc)

/-- Join segments with a single `/` between consecutive ones. -/
def joinSlash : List (List Char) → List Char
  | [] => []
  | [s] => s
  | s :: rest => s ++ '/' :: joinSlash rest

/-- Whether the character sequence ends in `/`. -/
def endsWithSlash : List Char → Bool
  | [] => false
  | [c] => c == '/'
  | _ :: rest => endsWithSlash rest

/-- Modelled from the spec: `CleanPath` (path.go) is not among the sources.
The spec's path normalizer (§4.1): output always starts with `/`; repeated
slashes collapse; `.` segments are removed; `..` pops the previous segment,
never escaping above root; a trailing slash present in the input is
preserved. -/
def normalizePath (p : List Char) : List Char :=
  let segs := collapseSegs (splitSlash p) []
  if segs.isEmpty then ['/']
  else '/' :: (joinSlash segs ++ (if endsWithSlash p then ['/'] else []))

/-- Modelled from the spec: the `CleanPath` string wrapper used by
`dispatchRequest` before case-insensitive recovery. -/
def CleanPath (s : String) : String :=
  String.mk (normalizePath s.data)

/-- `App.dispatchRequest` (app.go lines 104-152), with the response-writing
side effects reified as an `Outcome`. -/
def dispatchRequest (opts : Options) (r : Router) (method path : String) : Outcome :=
  match lookupTree r.trees method with
  | some root =>
    let gv : Option Route × Params × Bool := root.getValue path
    match gv.1 with
    | some route => Outcome.handled route gv.2.1
    | none =>
      if method != "CONNECT" && path != "/" then
        if gv.2.2 && opts.redirectTrailingSlash then
          Outcome.redirect (tsrPath path) (redirectCode method)
        else if opts.redirectFixedPath then
          let res : String × Bool := root.findCaseInsensitivePath (CleanPath path) opts.redirectTrailingSlash
          if res.2 then
            Outcome.redirect res.1 (redirectCode method)
          else
            dispatchFallback opts r path method
        else
          dispatchFallback opts r path method
      else
        dispatchFallback opts r path method
  | none => dispatchFallback opts r path method

/-- Go map write `trees[method] = root`: replace the binding if the key is
present, otherwise append it. -/
def upsertTree {α : Type} (ts : List (String × α)) (m : String) (n : α) :
    List (String × α) :=
  match ts with
  | [] => [(m, n)]
  | (k, v) :: rest => if k == m then (m, n) :: rest else (k, v) :: upsertTree rest m n

/-- Modelled from the spec: `node.addRoute` (tree.go) is not among the
sources.  For the registration claim only the fact that the route is
attached to the method's tree matters, so a registration-side node records
the `(pattern, route)` bindings inserted into it, in order. -/
structure RegNode where
  routes : List (String × Route)
deriving DecidableEq, Repr

/-- Modelled from the spec: attaching a route at its pattern's terminal
node is recorded by appending the binding. -/
def RegNode.addRoute (n : RegNode) (path : String) (rt : Route) : RegNode :=
  ⟨n.routes ++ [(path, rt)]⟩

/-- The registration-side route table, `Router.trees` as built by `Handle`. -/
structure RegRouter where
  trees : List (String × RegNode)
deriving DecidableEq, Repr

/-- `Router.Handle(method, path, handler)` (router.go lines 83-114): the
three fatal guards become `Except.error` with the panic messages; otherwise
the method's tree is fetched (created when absent) and the route inserted.
The Go byte test `len(path) < 1 || path[0] != '/'` is the test
`path.data.head? ≠ some '/'` on the character list (UTF-8: the first byte
is `'/'` iff the first character is).  A possibly-nil `HandlerFunc` is an
`Option Nat`. -/
def Handle (r : RegRouter) (method path : String) (handler : Option Nat) :
    Except String RegRouter :=
  if method = "" then
    Except.error "method must not be empty"
  else if path.data.head? ≠ some '/' then
    Except.error ("path must begin with '/' in path '" ++ path ++ "'")
  else
    match handler with
    | none => Except.error "handler must not be nil"
    | some h =>
      let root : RegNode :=
        match lookupTree r.trees method with
        | some n => n
        | none => ⟨[]⟩
      let route : Route := ⟨method, path, h⟩
      Except.ok ⟨upsertTree r.trees method (root.addRoute path route)⟩

/-- A Go slice with its backing store: `s[0:0]` keeps the store and sets
the length to zero, so the capacity is retained. -/
structure GoSlice (α : Type) where
  store : List α
  len : Nat
deriving DecidableEq, Repr

/-- The elements visible through the slice. -/
def GoSlice.view {α : Type} (s : GoSlice α) : List α :=
  s.store.take s.len

/-- `s[0:0]`: truncate to length zero without touching the backing store. -/
def GoSlice.truncate {α : Type} (s : GoSlice α) : GoSlice α :=
  { s with len := 0 }

/-- The request-scoped `Context` (context.go): `Request`, `Response` and
`Logger` are opaque handles, `Params` is the pooled parameter slice, and
`Meta` is the lazily allocated metadata map (`none` models the nil map). -/
structure Ctx where
  request : Nat
  response : Nat
  params : GoSlice Param
  logger : Nat
  meta : Option (List (String × Nat))
deriving DecidableEq, Repr

/-- `Context.reset`: `c.Params = c.Params[0:0]` and nothing else. -/
def Ctx.reset (c : Ctx) : Ctx :=
  { c with params := c.params.truncate }

/-- Go map assignment `m[k] = v` on an association list. -/
def insertKV : List (String × Nat) → String → Nat → List (String × Nat)
  | [], k, v => [(k, v)]
  | (k1, v1) :: rest, k, v =>
    if k1 == k then (k, v) :: rest else (k1, v1) :: insertKV rest k v

/-- Go map read `m[k]` on an association list. -/
def lookupKV : List (String × Nat) → String → Option Nat
  | [], _ => none
  | (k1, v1) :: rest, k => if k1 == k then some v1 else lookupKV rest k

/-- `Context.Set(key, value)`: lazily initialize `Meta` and store the pair. -/
def Ctx.set (c : Ctx) (key : String) (value : Nat) : Ctx :=
  match c.meta with
  | none => { c with meta := some (insertKV [] key value) }
  | some m => { c with meta := some (insertKV m key value) }

/-- `Context.Get(key)`: `value, exists = c.Meta[key]` — reading a nil map
yields the zero value and `false`. -/
def Ctx.get (c : Ctx) (key : String) : Option Nat × Bool :=
  match c.meta with
  | none => (none, false)
  | some m =>
    match lookupKV m key with
    | some v => (some v, true)
    | none => (none, false)

/-- The pre-dispatch part of `App.ServeHTTP` (app.go lines 87-96): the
pooled context is reset, then the request and response are attached, and
the resulting context is what `dispatchRequest` sees. -/
def serveHTTPSetup (c : Ctx) (req res : Nat) : Ctx :=
  let c1 := c.reset
  { c1 with request := req, response := res }

/-- A tree whose lookup always fails but always recommends the
trailing-slash correction; case-insensitive recovery finds nothing. -/
def tsrTree : RTree :=
  ⟨fun _ => (none, [], true), fun _ _ => ("", false)⟩

/-- The route `GET /ping`. -/
def pingRoute : Route := ⟨"GET", "/ping", 0⟩

/-- A tree matching exactly `/ping` (no parameters, no recommendations). -/
def pingTree : RTree :=
  ⟨fun p => if p = "/ping" then (some pingRoute, [], false) else (none, [], false),
   fun _ _ => ("", false)⟩

/-- All three dispatch options enabled (the application defaults). -/
def optsAll : Options := ⟨true, true, true⟩

/-- Defaults except `HandleMethodNotAllowed` disabled. -/
def optsNoMNA : Options := ⟨true, true, false⟩

/-- A route table with a single `CONNECT` tree that recommends the
trailing-slash correction on every path. -/
def connectRouter : Router := ⟨[("CONNECT", tsrTree)]⟩

/-- A route table with a single `HEAD` tree that recommends the
trailing-slash correction on every path. -/
def headRouter : Router := ⟨[("HEAD", tsrTree)]⟩

/-- A route table in which `/ping` is registered only for `GET`. -/
def pingRouter : Router := ⟨[("GET", pingTree)]⟩

/-- The non-strict order associated with `strLt`. -/
def strLeP (x y : String) : Prop := strLt y x = false

theorem strLtB_asymm : ∀ {x y : List Char}, strLtB x y = true → strLtB y x = false := by
  intro x
  induction x with
  | nil =>
    intro y h
    cases y with
    | nil => simp [strLtB] at h
    | cons b bs => simp [strLtB]
  | cons a as ih =>
    intro y h
    cases y with
    | nil => simp [strLtB] at h
    | cons b bs =>
      simp only [strLtB] at h ⊢
      by_cases h1 : a < b
      · rw [if_neg (lt_asymm h1), if_pos h1]
      · by_cases h2 : b < a
        · rw [if_neg h1, if_pos h2] at h
          exact absurd h (by simp)
        · rw [if_neg h1, if_neg h2] at h
          rw [if_neg h2, if_neg h1]
          exact ih h

theorem strLtB_conn : ∀ {x y : List Char},
    strLtB x y = false → strLtB y x = false → x = y := by
  intro x
  induction x with
  | nil =>
    intro y h1 _
    cases y with
    | nil => rfl
    | cons b bs => simp [strLtB] at h1
  | cons a as ih =>
    intro y h1 h2
    cases y with
    | nil => simp [strLtB] at h2
    | cons b bs =>
      simp only [strLtB] at h1 h2
      by_cases hab : a < b
      · rw [if_pos hab] at h1
        exact absurd h1 (by simp)
      · by_cases hba : b < a
        · rw [if_pos hba] at h2
          exact absurd h2 (by simp)
        · rw [if_neg hab, if_neg hba] at h1
          rw [if_neg hba, if_neg hab] at h2
          have : a = b := le_antisymm (le_of_not_lt hba) (le_of_not_lt hab)
          rw [this, ih h1 h2]

theorem strLtB_trans : ∀ {x y z : List Char},
    strLtB x y = true → strLtB y z = true → strLtB x z = true := by
  intro x
  induction x with
  | nil =>
    intro y z h1 h2
    cases y with
    | nil => simp [strLtB] at h1
    | cons b bs =>
      cases z with
      | nil => simp [strLtB] at h2
      | cons c cs => simp [strLtB]
  | cons a as ih =>
    intro y z h1 h2
    cases y with
    | nil => simp [strLtB] at h1
    | cons b bs =>
      cases z with
      | nil => simp [strLtB] at h2
      | cons c cs =>
        simp only [strLtB] at h1 h2 ⊢
        by_cases hab : a < b
        · by_cases hbc : b < c
          · rw [if_pos (lt_trans hab hbc)]
          · by_cases hcb : c < b
            · rw [if_neg hbc, if_pos hcb] at h2
              exact absurd h2 (by simp)
            · have hbceq : b = c := le_antisymm (le_of_not_lt hcb) (le_of_not_lt hbc)
              rw [if_pos (hbceq ▸ hab)]
        · by_cases hba : b < a
          · rw [if_neg hab, if_pos hba] at h1
            exact absurd h1 (by simp)
          · have habeq : a = b := le_antisymm (le_of_not_lt hba) (le_of_not_lt hab)
            rw [if_neg hab, if_neg hba] at h1
            by_cases hbc : b < c
            · rw [if_pos (habeq ▸ hbc)]
            · by_cases hcb : c < b
              · rw [if_neg hbc, if_pos hcb] at h2
                exact absurd h2 (by simp)
              · rw [if_neg hbc, if_neg hcb] at h2
                rw [if_neg (habeq ▸ hbc), if_neg (habeq ▸ hcb)]
                exact ih h1 h2

theorem strLt_asymm {x y : String} (h : strLt x y = true) : strLt y x = false :=
  strLtB_asymm h

theorem strLt_trans {x y z : String} (h1 : strLt x y = true)
    (h2 : strLt y z = true) : strLt x z = true :=
  strLtB_trans h1 h2

theorem strLt_conn {x y : String} (h1 : strLt x y = false)
    (h2 : strLt y x = false) : x = y := by
  cases x with
  | mk dx =>
    cases y with
    | mk dy =>
      have : dx = dy := strLtB_conn h1 h2
      rw [this]

theorem insertAllowed_perm (a : String) (l : List String) :
    List.Perm (insertAllowed a l) (a :: l) := by
  induction l with
  | nil => exact List.Perm.refl _
  | cons b l ih =>
    simp only [insertAllowed]
    by_cases h : strLt a b = true
    · rw [if_pos h]
    · rw [if_neg h]
      exact (ih.cons b).trans (List.Perm.swap a b l)

theorem mem_insertAllowed {x a : String} {l : List String} :
    x ∈ insertAllowed a l ↔ x = a ∨ x ∈ l := by
  rw [(insertAllowed_perm a l).mem_iff, List.mem_cons]

theorem insertAllowed_sorted {l : List String} (h : l.Sorted strLeP)
    (a : String) : (insertAllowed a l).Sorted strLeP := by
  induction l with
  | nil => simp [insertAllowed, List.Sorted]
  | cons b t ih =>
    rw [List.sorted_cons] at h
    obtain ⟨hb, ht⟩ := h
    simp only [insertAllowed]
    by_cases hab : strLt a b = true
    · rw [if_pos hab, List.sorted_cons]
      constructor
      · intro x hx
        rcases List.mem_cons.mp hx with hx | hx
        · rw [hx]
          exact strLt_asymm hab
        · have hbx : strLt x b = false := hb x hx
          show strLt x a = false
          by_contra hcon
          have : strLt x b = true := strLt_trans (Bool.of_not_eq_false hcon) hab
          rw [this] at hbx
          exact absurd hbx (by simp)
      · rw [List.sorted_cons]
        exact ⟨hb, ht⟩
    · rw [if_neg hab, List.sorted_cons]
      constructor
      · intro x hx
        rcases mem_insertAllowed.mp hx with hx | hx
        · rw [hx]
          exact Bool.eq_false_iff.mpr (fun hc => hab hc)
        · exact hb x hx
      · exact ih ht

theorem sortAllowed_perm_aux : ∀ (l acc : List String),
    List.Perm (List.foldl (fun acc a => insertAllowed a acc) acc l) (acc ++ l) := by
  intro l
  induction l with
  | nil => intro acc; simp
  | cons a l ih =>
    intro acc
    exact (ih (insertAllowed a acc)).trans
      (((insertAllowed_perm a acc).append_right l).trans List.perm_middle.symm)

theorem sortAllowed_perm (l : List String) : List.Perm (sortAllowed l) l := by
  simpa using sortAllowed_perm_aux l []

theorem sortAllowed_sorted_aux : ∀ (l acc : List String),
    acc.Sorted strLeP →
    (List.foldl (fun acc a => insertAllowed a acc) acc l).Sorted strLeP := by
  intro l
  induction l with
  | nil => intro acc h; exact h
  | cons a l ih =>
    intro acc h
    exact ih _ (insertAllowed_sorted h a)

theorem sortAllowed_sorted (l : List String) : (sortAllowed l).Sorted strLeP :=
  sortAllowed_sorted_aux l [] (by simp)

theorem not_mem_allowedList (r : Router) (path reqMethod : String)
    (hp : path ≠ "*") : reqMethod ∉ allowedList r path reqMethod := by
  intro hmem
  unfold allowedList at hmem
  rw [if_neg (by simpa using hp)] at hmem
  rcases List.mem_map.mp hmem with ⟨p, hpf, hpeq⟩
  rcases List.mem_filter.mp hpf with ⟨_, hcond⟩
  simp only [Bool.and_eq_true, bne_iff_ne] at hcond
  exact hcond.1.1 (hpeq.trans rfl)

/-- C3 counterexample: for the special path `"*"` the excluded method is
not removed from the probe set, so with `/ping` registered for `GET`,
`allowed("*", "GET")` is `"GET, OPTIONS"`, which contains the excluded
method `GET`. -/
theorem allowed_excluded_counterexample :
    allowed pingRouter "*" "GET" = "GET, OPTIONS" ∧
    "GET" ∈ sortAllowed (allowedList pingRouter "*" "GET" ++ ["OPTIONS"]) := by
  constructor
  · decide
  · decide

/-- C3 (amended): for every concrete path (`path ≠ "*"`) and every excluded
method other than `OPTIONS`, the method list whose join `allowed` returns
never contains the excluded method; for `path = "*"` every registered
method except `OPTIONS` is reported, the excluded one included. -/
theorem allowed_excluded_amended (r : Router) (path reqMethod : String)
    (hp : path ≠ "*") (hm : reqMethod ≠ "OPTIONS") :
    reqMethod ∉ sortAllowed (allowedList r path reqMethod ++ ["OPTIONS"]) ∧
    (allowed r path reqMethod = "" ∨
      allowed r path reqMethod =
        joinComma (sortAllowed (allowedList r path reqMethod ++ ["OPTIONS"]))) := by
  constructor
  · intro hmem
    have hmem2 := (sortAllowed_perm _).mem_iff.mp hmem
    rcases List.mem_append.mp hmem2 with h | h
    · exact not_mem_allowedList r path reqMethod hp h
    · simp only [List.mem_singleton] at h
      exact hm h
  · unfold allowed
    by_cases h : (allowedList r path reqMethod).length > 0
    · right
      rw [if_pos h]
    · left
      rw [if_neg h]

/-- C3 witness: the amended theorem applied to the `/ping`-for-`GET` table
with excluded method `POST`. -/
theorem allowed_excluded_amended_witness :
    "POST" ∉ sortAllowed (allowedList pingRouter "/ping" "POST" ++ ["OPTIONS"]) :=
  (allowed_excluded_amended pingRouter "/ping" "POST" (by decide) (by decide)).1

/-- C4: whenever `allowed` returns a non-empty string, that string is the
`", "`-join of the insertion-sorted (byte-wise alphabetical) collected
methods together with `OPTIONS`; and with `/ping` registered only for
`GET`, `allowed("/ping", "POST")` is exactly `"GET, OPTIONS"`. -/
theorem allowed_sorted_joined :
    (∀ (r : Router) (path reqMethod : String),
      allowed r path reqMethod ≠ "" →
        allowed r path reqMethod =
          joinComma (sortAllowed (allowedList r path reqMethod ++ ["OPTIONS"])) ∧
        (sortAllowed (allowedList r path reqMethod ++ ["OPTIONS"])).Sorted strLeP ∧
        List.Perm (sortAllowed (allowedList r path reqMethod ++ ["OPTIONS"]))
          (allowedList r path reqMethod ++ ["OPTIONS"])) ∧
    allowed pingRouter "/ping" "POST" = "GET, OPTIONS" := by
  constructor
  · intro r path reqMethod hne
    refine ⟨?_, sortAllowed_sorted _, sortAllowed_perm _⟩
    unfold allowed at hne ⊢
    by_cases h : (allowedList r path reqMethod).length > 0
    · rw [if_pos h]
    · rw [if_neg h] at hne
      exact absurd rfl hne
  · decide

/-- C4 witness: the general part applied to the `/ping`-for-`GET` table. -/
theorem allowed_sorted_joined_witness :
    allowed pingRouter "/ping" "POST" =
      joinComma (sortAllowed (allowedList pingRouter "/ping" "POST" ++ ["OPTIONS"])) ∧
    (sortAllowed (allowedList pingRouter "/ping" "POST" ++ ["OPTIONS"])).Sorted strLeP := by
  have h := allowed_sorted_joined.1 pingRouter "/ping" "POST" (by decide)
  exact ⟨h.1, h.2.1⟩

theorem dispatchFallback_eq (opts : Options) (r : Router) (path method : String) :
    dispatchFallback opts r path method =
      if opts.handleMethodNotAllowed = true ∧ allowed r path method ≠ "" then
        Outcome.methodNotAllowed (allowed r path method)
      else Outcome.notFound := by
  unfold dispatchFallback
  cases hm : opts.handleMethodNotAllowed with
  | false => simp [hm]
  | true =>
    by_cases ha : allowed r path method = ""
    · simp [ha]
    · simp [ha]

theorem dispatchFallback_not_redirect (opts : Options) (r : Router)
    (path method : String) :
    (dispatchFallback opts r path method).isRedirect = false := by
  rw [dispatchFallback_eq]
  by_cases h : opts.handleMethodNotAllowed = true ∧ allowed r path method ≠ ""
  · rw [if_pos h]; rfl
  · rw [if_neg h]; rfl

theorem dispatchRequest_shape (opts : Options) (r : Router) (method path : String) :
    (∃ route ps, dispatchRequest opts r method path = Outcome.handled route ps) ∨
    (∃ url, dispatchRequest opts r method path = Outcome.redirect url (redirectCode method)) ∨
    dispatchRequest opts r method path = dispatchFallback opts r path method := by
  unfold dispatchRequest
  cases hroot : lookupTree r.trees method with
  | none => right; right; rfl
  | some root =>
    rcases hgv : root.getValue path with ⟨ro, ps, tsr⟩
    cases ro with
    | some route =>
      left
      exact ⟨route, ps, by simp [hgv]⟩
    | none =>
      simp only [hgv]
      cases hguard : (method != "CONNECT" && path != "/") with
      | false => right; right; simp
      | true =>
        cases htsr : (tsr && opts.redirectTrailingSlash) with
        | true =>
          right; left
          exact ⟨tsrPath path, by simp [htsr]⟩
        | false =>
          cases hfp : opts.redirectFixedPath with
          | false => right; right; simp [htsr, hfp]
          | true =>
            cases hci : (root.findCaseInsensitivePath (CleanPath path) opts.redirectTrailingSlash).2 with
            | true =>
              right; left
              refine ⟨(root.findCaseInsensitivePath (CleanPath path) opts.redirectTrailingSlash).1, ?_⟩
              simp [htsr, hfp, hci]
            | false => right; right; simp [htsr, hfp, hci]

/-- C1 counterexample: two dispatched requests on which the claimed policy
fails.  First, a `CONNECT` request for `/x` whose tree recommends the
trailing-slash correction while trailing-slash redirects are enabled is
answered 404, not redirected (the `method != CONNECT && path != "/"` guard
skips both corrections).  Second, with `HandleMethodNotAllowed` disabled, a
`POST` to `/ping` (registered for `GET`) is answered 404 even though
`Allowed("/ping", "POST")` is the non-empty `"GET, OPTIONS"`. -/
theorem dispatch_precedence_counterexample :
    ((tsrTree.getValue "/x").2.2 = true ∧
      optsAll.redirectTrailingSlash = true ∧
      dispatchRequest optsAll connectRouter "CONNECT" "/x" = Outcome.notFound) ∧
    (allowed pingRouter "/ping" "POST" = "GET, OPTIONS" ∧
      dispatchRequest optsNoMNA pingRouter "POST" "/ping" = Outcome.notFound) := by
  refine ⟨⟨rfl, rfl, by decide⟩, by decide, by decide⟩

/-- C1 (amended): the dispatch decision is terminal at the first applicable
state, in order: (1) an exact match invokes the handler with the bound
parameters; (2) otherwise, provided the method is not `CONNECT` and the
path is not `"/"`, a recommended trailing-slash correction with
trailing-slash redirects enabled issues the trailing-slash redirect —
whose target and code are independent of the case-insensitive search, so
case correction is never attempted; (3) otherwise, under the same guard, a
successful case-insensitive match with fixed-path redirects enabled issues
a redirect to the canonical path; (4) in every remaining case the request
falls through to the common tail: 405 with the `Allow` header exactly when
method-not-allowed handling is enabled and `allowed(path, method)` is
non-empty, else 404. -/
theorem dispatch_precedence_amended (opts : Options) (r : Router)
    (method path : String) :
    (∀ root route ps tsr, lookupTree r.trees method = some root →
      root.getValue path = (some route, ps, tsr) →
      dispatchRequest opts r method path = Outcome.handled route ps) ∧
    (∀ root ps, lookupTree r.trees method = some root →
      root.getValue path = (none, ps, true) →
      method ≠ "CONNECT" → path ≠ "/" → opts.redirectTrailingSlash = true →
      dispatchRequest opts r method path =
        Outcome.redirect (tsrPath path) (redirectCode method)) ∧
    (∀ root ps tsr fixedPath, lookupTree r.trees method = some root →
      root.getValue path = (none, ps, tsr) →
      method ≠ "CONNECT" → path ≠ "/" →
      (tsr = false ∨ opts.redirectTrailingSlash = false) →
      opts.redirectFixedPath = true →
      root.findCaseInsensitivePath (CleanPath path) opts.redirectTrailingSlash =
        (fixedPath, true) →
      dispatchRequest opts r method path =
        Outcome.redirect fixedPath (redirectCode method)) ∧
    ((dispatchRequest opts r method path).isRedirect = false →
      (∀ route ps, dispatchRequest opts r method path ≠ Outcome.handled route ps) →
      dispatchRequest opts r method path =
        if opts.handleMethodNotAllowed = true ∧ allowed r path method ≠ "" then
          Outcome.methodNotAllowed (allowed r path method)
        else Outcome.notFound) := by
  refine ⟨?_, ?_, ?_, ?_⟩
  · intro root route ps tsr hroot hgv
    unfold dispatchRequest
    rw [hroot]
    simp [hgv]
  · intro root ps hroot hgv hmc hps hrts
    unfold dispatchRequest
    rw [hroot]
    simp [hgv, hmc, hps, hrts]
  · intro root ps tsr fixedPath hroot hgv hmc hps htsr hfp hci
    unfold dispatchRequest
    rw [hroot]
    have htsr2 : (tsr && opts.redirectTrailingSlash) = false := by
      rcases htsr with h | h
      · rw [h]; rfl
      · rw [h]; exact Bool.and_false tsr
    simp [hgv, hmc, hps, htsr2, hfp, hci]
  · intro hnr hnh
    rcases dispatchRequest_shape opts r method path with ⟨route, ps, h⟩ | ⟨url, h⟩ | h
    · exact absurd h (hnh route ps)
    · rw [h] at hnr
      exact absurd hnr (by simp [Outcome.isRedirect])
    · rw [h, dispatchFallback_eq]

/-- C1 witness: the amended theorem's trailing-slash branch applied to a
`HEAD` request for `/x` against a tree that recommends the correction. -/
theorem dispatch_precedence_amended_witness :
    dispatchRequest optsAll headRouter "HEAD" "/x" =
      Outcome.redirect (tsrPath "/x") (redirectCode "HEAD") :=
  (dispatch_precedence_amended optsAll headRouter "HEAD" "/x").2.1
    tsrTree [] rfl rfl (by decide) (by decide) rfl

/-- A route table with a single `GET` tree that recommends the
trailing-slash correction on every path. -/
def getRouter : Router := ⟨[("GET", tsrTree)]⟩

/-- C2 counterexample: a `HEAD` request that triggers a trailing-slash
redirect receives status 308, not the claimed 301 (only `GET` gets 301). -/
theorem redirect_code_counterexample :
    dispatchRequest optsAll headRouter "HEAD" "/x" = Outcome.redirect "/x/" 308 ∧
    dispatchRequest optsAll headRouter "HEAD" "/x" ≠ Outcome.redirect "/x/" 301 := by
  refine ⟨by decide, by decide⟩

/-- C2 (amended): every redirect issued by the dispatch policy
(trailing-slash or case-insensitive) carries status 301 when the request
method is `GET`, and 308 for every other method — `HEAD` included. -/
theorem redirect_code_amended (opts : Options) (r : Router)
    (method path url : String) (code : Nat)
    (h : dispatchRequest opts r method path = Outcome.redirect url code) :
    code = if method = "GET" then 301 else 308 := by
  rcases dispatchRequest_shape opts r method path with ⟨route, ps, h2⟩ | ⟨url2, h2⟩ | h2
  · rw [h] at h2
    simp at h2
  · rw [h] at h2
    have hcode : code = redirectCode method := (Outcome.redirect.injEq _ _ _ _ ▸ h2).2
    by_cases hg : method = "GET"
    · simp [hcode, redirectCode, hg]
    · simp [hcode, redirectCode, hg]
  · rw [h] at h2
    have hnr := dispatchFallback_not_redirect opts r path method
    rw [← h2] at hnr
    simp [Outcome.isRedirect] at hnr

/-- C2 witness: the amended theorem applied to a `GET` request (301) and a
`HEAD` request (308) that both trigger trailing-slash redirects. -/
theorem redirect_code_amended_witness :
    (301 : Nat) = (if "GET" = "GET" then 301 else 308) ∧
    (308 : Nat) = (if "HEAD" = "GET" then 301 else 308) :=
  ⟨redirect_code_amended optsAll getRouter "GET" "/x" "/x/" 301 (by decide),
   redirect_code_amended optsAll headRouter "HEAD" "/x" "/x/" 308 (by decide)⟩

/-- C10: a `CONNECT` request, and a request for the root path `"/"`, are
never answered with a trailing-slash or case-insensitive redirect, whatever
the options and the tree behavior; such a request is either handled by an
exact match or falls through to the common 405/404 tail. -/
theorem connect_root_no_redirect (opts : Options) (r : Router)
    (method path : String) (h : method = "CONNECT" ∨ path = "/") :
    (dispatchRequest opts r method path).isRedirect = false ∧
    ((∃ route ps, dispatchRequest opts r method path = Outcome.handled route ps) ∨
      dispatchRequest opts r method path = dispatchFallback opts r path method) := by
  have hnr : (dispatchRequest opts r method path).isRedirect = false := by
    unfold dispatchRequest
    cases hroot : lookupTree r.trees method with
    | none => exact dispatchFallback_not_redirect opts r path method
    | some root =>
      rcases hgv : root.getValue path with ⟨ro, ps, tsr⟩
      cases ro with
      | some route => simp [hgv, Outcome.isRedirect]
      | none =>
        have hguard : (method != "CONNECT" && path != "/") = false := by
          rcases h with h | h
          · simp [h]
          · simp [h]
        simp [hgv, hguard, dispatchFallback_not_redirect]
  refine ⟨hnr, ?_⟩
  rcases dispatchRequest_shape opts r method path with ⟨route, ps, h2⟩ | ⟨url, h2⟩ | h2
  · exact Or.inl ⟨route, ps, h2⟩
  · rw [h2] at hnr
    simp [Outcome.isRedirect] at hnr
  · exact Or.inr h2

/-- C10 witness: a `CONNECT` request whose tree recommends the
trailing-slash correction is still not redirected. -/
theorem connect_root_no_redirect_witness :
    (dispatchRequest optsAll connectRouter "CONNECT" "/x").isRedirect = false :=
  (connect_root_no_redirect optsAll connectRouter "CONNECT" "/x" (Or.inl rfl)).1

/-- C6: a method with no tree in the route table yields "no route": no
route, no parameters, `trailingSlashRecommended = false` — whatever every
other method's tree would answer. -/
theorem lookup_no_tree (r : Router) (method path : String)
    (h : lookupTree r.trees method = none) :
    Lookup r method path = (none, ([] : Params), false) := by
  unfold Lookup
  rw [h]

/-- C6 witness: looking up `POST /ping` against a table that only has a
`GET` tree. -/
theorem lookup_no_tree_witness :
    Lookup pingRouter "POST" "/ping" = (none, ([] : Params), false) :=
  lookup_no_tree pingRouter "POST" "/ping" rfl

/-- `true` exactly on `Except.error`. -/
def exceptIsError {α β : Type} : Except α β → Bool
  | .error _ => true
  | .ok _ => false

/-- C5: `Handle` fails fatally exactly when the method is empty, the
pattern is empty or does not start with `/`, or the handler is nil; when no
precondition is violated it proceeds to insert the route into the method's
tree, creating the tree if absent. -/
theorem handle_guard_spec (r : RegRouter) (method path : String)
    (handler : Option Nat) :
    (exceptIsError (Handle r method path handler) = true ↔
      (method = "" ∨ path = "" ∨ path.data.head? ≠ some '/' ∨ handler = none)) ∧
    (∀ h, handler = some h → method ≠ "" → path.data.head? = some '/' →
      ∃ n : RegNode,
        Handle r method path handler = Except.ok ⟨upsertTree r.trees method n⟩ ∧
        n.routes =
          (match lookupTree r.trees method with
            | some old => old.routes
            | none => ([] : List (String × Route))) ++
            [(path, ⟨method, path, h⟩)]) := by
  constructor
  · unfold Handle
    by_cases hm : method = ""
    · rw [if_pos hm]
      simp [exceptIsError, hm]
    · rw [if_neg hm]
      by_cases hp : path.data.head? = some '/'
      · rw [if_neg (by simp [hp])]
        have hpe : path ≠ "" := by
          intro hc
          rw [hc] at hp
          simp at hp
        cases handler with
        | none => simp [exceptIsError]
        | some h => simp [exceptIsError, hm, hp, hpe]
      · rw [if_pos hp]
        simp [exceptIsError, hp]
  · intro h hh hm hp
    subst hh
    unfold Handle
    rw [if_neg hm, if_neg (by simp [hp])]
    refine ⟨_, rfl, ?_⟩
    cases hlt : lookupTree r.trees method with
    | none => simp [hlt, RegNode.addRoute]
    | some old => simp [hlt, RegNode.addRoute]

/-- The empty registration-side route table. -/
def emptyRegRouter : RegRouter := ⟨[]⟩

/-- C5 witness: registering `GET /ping` in an empty table succeeds and
records the route; registering with an empty method fails fatally. -/
theorem handle_guard_spec_witness :
    Handle emptyRegRouter "GET" "/ping" (some 0) =
      Except.ok ⟨[("GET", ⟨[("/ping", ⟨"GET", "/ping", 0⟩)]⟩)]⟩ ∧
    exceptIsError (Handle emptyRegRouter "" "/ping" (some 0)) = true := by
  constructor
  · obtain ⟨n, hok, hn⟩ :=
      (handle_guard_spec emptyRegRouter "GET" "/ping" (some 0)).2 0 rfl
        (by decide) (by decide)
    rw [hok]
    cases n with
    | mk routes =>
      simp only at hn
      rw [show routes = [("/ping", ⟨"GET", "/ping", 0⟩)] from by
        simpa [emptyRegRouter, lookupTree] using hn]
      rfl
  · exact (handle_guard_spec emptyRegRouter "" "/ping" (some 0)).1.mpr
      (Or.inl rfl)

/-- C7: the context handed to `dispatchRequest` by `ServeHTTP` always
starts with an empty parameter sequence: the pooled context's `Params` is
truncated to length zero while its backing store is retained, so no binding
from a previous request is visible. -/
theorem serve_reset_params (c : Ctx) (req res : Nat) :
    (serveHTTPSetup c req res).params.len = 0 ∧
    (serveHTTPSetup c req res).params.view = [] ∧
    (serveHTTPSetup c req res).params.store = c.params.store := by
  refine ⟨rfl, ?_, rfl⟩
  simp [serveHTTPSetup, Ctx.reset, GoSlice.truncate, GoSlice.view]

theorem lookupKV_insertKV (m : List (String × Nat)) (k : String) (v : Nat) :
    lookupKV (insertKV m k v) k = some v := by
  induction m with
  | nil => simp [insertKV, lookupKV]
  | cons p rest ih =>
    obtain ⟨k1, v1⟩ := p
    unfold insertKV
    cases hk : (k1 == k) with
    | true => simp [lookupKV]
    | false => simp [lookupKV, hk, ih]

/-- C9: `Context.reset` truncates only `Params` — `Request`, `Response`,
`Logger` and in particular the `Meta` map are untouched — so a key/value
pair stored during an earlier request is still readable after the context
is reset for the next one. -/
theorem reset_frame_meta (c : Ctx) (k : String) (v : Nat) :
    (Ctx.reset c).meta = c.meta ∧
    (Ctx.reset c).request = c.request ∧
    (Ctx.reset c).response = c.response ∧
    (Ctx.reset c).logger = c.logger ∧
    (Ctx.reset c).params = c.params.truncate ∧
    (Ctx.reset (Ctx.set c k v)).get k = (some v, true) := by
  refine ⟨rfl, rfl, rfl, rfl, rfl, ?_⟩
  unfold Ctx.reset Ctx.set Ctx.get
  cases hm : c.meta with
  | none => simp [lookupKV_insertKV]
  | some m => simp [lookupKV_insertKV]

theorem splitSlash_ne_nil : ∀ p : List Char, splitSlash p ≠ [] := by
  intro p
  cases p with
  | nil => simp [splitSlash]
  | cons c rest =>
    unfold splitSlash
    cases splitSlash rest with
    | nil => simp
    | cons s ss =>
      by_cases h : c = '/'
      · simp [h]
      · simp [h]

theorem splitSlash_noslash : ∀ (p : List Char) (s : List Char),
    s ∈ splitSlash p → '/' ∉ s := by
  intro p
  induction p with
  | nil =>
    intro s hs
    simp [splitSlash] at hs
    simp [hs]
  | cons c rest ih =>
    intro s hs
    unfold splitSlash at hs
    cases hsp : splitSlash rest with
    | nil => exact absurd hsp (splitSlash_ne_nil rest)
    | cons t ts =>
      rw [hsp] at hs
      change s ∈ (if c = '/' then [] :: t :: ts else (c :: t) :: ts) at hs
      by_cases hc : c = '/'
      · rw [if_pos hc] at hs
        rcases List.mem_cons.mp hs with h | h
        · simp [h]
        · exact ih s (hsp ▸ h)
      · rw [if_neg hc] at hs
        rcases List.mem_cons.mp hs with h | h
        · rw [h]
          intro hmem
          rcases List.mem_cons.mp hmem with h2 | h2
          · exact hc h2.symm
          · exact ih t (hsp ▸ List.mem_cons_self t ts) h2
        · exact ih s (hsp ▸ List.mem_cons.mpr (Or.inr h))

theorem splitSlash_append (s rest : List Char) (h : '/' ∉ s)
    (t : List Char) (ts : List (List Char)) (hrest : splitSlash rest = t :: ts) :
    splitSlash (s ++ rest) = (s ++ t) :: ts := by
  induction s with
  | nil => simpa using hrest
  | cons c s2 ih =>
    have hc : c ≠ '/' := fun hcc => h (hcc ▸ List.mem_cons_self c s2)
    have hs2 : '/' ∉ s2 := fun hmem => h (List.mem_cons.mpr (Or.inr hmem))
    have ih2 := ih hs2
    show splitSlash (c :: (s2 ++ rest)) = ((c :: s2) ++ t) :: ts
    unfold splitSlash
    rw [ih2]
    simp [fun hcc => hc hcc]

theorem splitSlash_single (s : List Char) (h : '/' ∉ s) : splitSlash s = [s] := by
  have := splitSlash_append s [] h [] [] (by simp [splitSlash])
  simpa using this

theorem splitSlash_cons_slash (x : List Char) :
    splitSlash ('/' :: x) = [] :: splitSlash x := by
  obtain ⟨t, ts, hsp⟩ : ∃ t ts, splitSlash x = t :: ts := by
    cases h : splitSlash x with
    | nil => exact absurd h (splitSlash_ne_nil x)
    | cons t ts => exact ⟨t, ts, rfl⟩
  show (match splitSlash x with
    | [] => [[]]
    | s :: ss => if ('/' : Char) = '/' then [] :: s :: ss else ('/' :: s) :: ss) =
    [] :: splitSlash x
  rw [hsp]
  simp

theorem splitSlash_join : ∀ segs : List (List Char), segs ≠ [] →
    (∀ s ∈ segs, '/' ∉ s) → splitSlash (joinSlash segs) = segs := by
  intro segs
  induction segs with
  | nil => intro h; exact absurd rfl h
  | cons s rest ih =>
    intro _ hns
    cases rest with
    | nil =>
      show splitSlash s = [s]
      exact splitSlash_single s (hns s (List.mem_cons_self s []))
    | cons s2 r2 =>
      show splitSlash (s ++ '/' :: joinSlash (s2 :: r2)) = s :: s2 :: r2
      have hrec : splitSlash (joinSlash (s2 :: r2)) = s2 :: r2 :=
        ih (by simp) (fun x hx => hns x (List.mem_cons.mpr (Or.inr hx)))
      have hsl : splitSlash ('/' :: joinSlash (s2 :: r2)) = [] :: s2 :: r2 := by
        rw [splitSlash_cons_slash, hrec]
      have := splitSlash_append s ('/' :: joinSlash (s2 :: r2))
        (hns s (List.mem_cons_self s _)) [] (s2 :: r2) hsl
      simpa using this

theorem splitSlash_join_slash : ∀ (segs : List (List Char)) (rest : List Char),
    segs ≠ [] → (∀ s ∈ segs, '/' ∉ s) →
    splitSlash (joinSlash segs ++ '/' :: rest) = segs ++ splitSlash rest := by
  intro segs
  induction segs with
  | nil => intro rest h; exact absurd rfl h
  | cons s tail ih =>
    intro rest _ hns
    cases tail with
    | nil =>
      show splitSlash (s ++ '/' :: rest) = [s] ++ splitSlash rest
      have hsl : splitSlash ('/' :: rest) = [] :: splitSlash rest :=
        splitSlash_cons_slash rest
      have := splitSlash_append s ('/' :: rest)
        (hns s (List.mem_cons_self s [])) [] (splitSlash rest) hsl
      simpa using this
    | cons s2 r2 =>
      show splitSlash ((s ++ '/' :: joinSlash (s2 :: r2)) ++ '/' :: rest) =
        (s :: s2 :: r2) ++ splitSlash rest
      have hrec : splitSlash (joinSlash (s2 :: r2) ++ '/' :: rest) =
          (s2 :: r2) ++ splitSlash rest :=
        ih rest (by simp) (fun x hx => hns x (List.mem_cons.mpr (Or.inr hx)))
      have hsl : splitSlash ('/' :: (joinSlash (s2 :: r2) ++ '/' :: rest)) =
          [] :: ((s2 :: r2) ++ splitSlash rest) := by
        rw [splitSlash_cons_slash, hrec]
      have happ := splitSlash_append s ('/' :: (joinSlash (s2 :: r2) ++ '/' :: rest))
        (hns s (List.mem_cons_self s _)) [] ((s2 :: r2) ++ splitSlash rest) hsl
      rw [List.append_assoc, List.cons_append]
      simpa using happ

/-- A resolved path segment: non-empty, slash-free, and not a dot segment. -/
def GoodSeg (s : List Char) : Prop :=
  s ≠ [] ∧ '/' ∉ s ∧ s ≠ ['.'] ∧ s ≠ ['.', '.']

theorem collapseSegs_good : ∀ (ss acc : List (List Char)),
    (∀ s ∈ ss, '/' ∉ s) → (∀ s ∈ acc, GoodSeg s) →
    ∀ s ∈ collapseSegs ss acc, GoodSeg s := by
  intro ss
  induction ss with
  | nil =>
    intro acc _ hacc s hs
    rw [collapseSegs] at hs
    exact hacc s (List.mem_reverse.mp hs)
  | cons t rest ih =>
    intro acc hss hacc s hs
    have hrest : ∀ x ∈ rest, '/' ∉ x := fun x hx =>
      hss x (List.mem_cons.mpr (Or.inr hx))
    rw [collapseSegs] at hs
    by_cases h1 : t = [] ∨ t = ['.']
    · rw [if_pos h1] at hs
      exact ih acc hrest hacc s hs
    · rw [if_neg h1] at hs
      by_cases h2 : t = ['.', '.']
      · rw [if_pos h2] at hs
        refine ih acc.tail hrest (fun x hx => hacc x ?_) s hs
        exact List.tail_subset acc hx
      · rw [if_neg h2] at hs
        refine ih (t :: acc) hrest (fun x hx => ?_) s hs
        rcases List.mem_cons.mp hx with h | h
        · rw [h]
          push_neg at h1
          exact ⟨h1.1, hss t (List.mem_cons_self t rest), h1.2, h2⟩
        · exact hacc x h

theorem collapseSegs_skip_all : ∀ (ss acc : List (List Char)),
    (∀ s ∈ ss, GoodSeg s) → collapseSegs ss acc = acc.reverse ++ ss := by
  intro ss
  induction ss with
  | nil => intro acc _; simp [collapseSegs]
  | cons t rest ih =>
    intro acc hss
    obtain ⟨hne, _, hdot, hdotdot⟩ := hss t (List.mem_cons_self t rest)
    rw [collapseSegs, if_neg (by simp [hne, hdot]), if_neg hdotdot]
    rw [ih (t :: acc) (fun x hx => hss x (List.mem_cons.mpr (Or.inr hx)))]
    simp

theorem collapseSegs_append_empty : ∀ (ss acc : List (List Char)),
    collapseSegs (ss ++ [[]]) acc = collapseSegs ss acc := by
  intro ss
  induction ss with
  | nil => intro acc; simp [collapseSegs]
  | cons t rest ih =>
    intro acc
    show collapseSegs (t :: (rest ++ [[]])) acc = collapseSegs (t :: rest) acc
    rw [collapseSegs, collapseSegs]
    by_cases h1 : t = [] ∨ t = ['.']
    · rw [if_pos h1, if_pos h1, ih]
    · rw [if_neg h1, if_neg h1]
      by_cases h2 : t = ['.', '.']
      · rw [if_pos h2, if_pos h2, ih]
      · rw [if_neg h2, if_neg h2, ih]

theorem endsWithSlash_cons_ne (c : Char) (x : List Char) (h : x ≠ []) :
    endsWithSlash (c :: x) = endsWithSlash x := by
  cases x with
  | nil => exact absurd rfl h
  | cons d t => rfl

theorem endsWithSlash_append (s rest : List Char) (h : rest ≠ []) :
    endsWithSlash (s ++ rest) = endsWithSlash rest := by
  induction s with
  | nil => rfl
  | cons c s2 ih =>
    show endsWithSlash (c :: (s2 ++ rest)) = endsWithSlash rest
    rw [endsWithSlash_cons_ne c _ (by simp [h]), ih]

theorem endsWithSlash_noslash (l : List Char) (h : '/' ∉ l) :
    endsWithSlash l = false := by
  induction l with
  | nil => rfl
  | cons c rest ih =>
    cases rest with
    | nil =>
      show (c == '/') = false
      simp only [List.mem_singleton] at h
      simp [Ne.symm h]
    | cons d t =>
      rw [endsWithSlash_cons_ne c _ (by simp)]
      exact ih (fun hm => h (List.mem_cons.mpr (Or.inr hm)))

theorem endsWithSlash_concat (l : List Char) :
    endsWithSlash (l ++ ['/']) = true := by
  rw [endsWithSlash_append l ['/'] (by simp)]
  rfl

theorem joinSlash_ne_nil : ∀ segs : List (List Char), segs ≠ [] →
    (∀ s ∈ segs, GoodSeg s) → joinSlash segs ≠ [] := by
  intro segs
  cases segs with
  | nil => intro h; exact absurd rfl h
  | cons s rest =>
    intro _ hg
    cases rest with
    | nil =>
      show s ≠ []
      exact (hg s (List.mem_cons_self s [])).1
    | cons s2 r2 =>
      show s ++ '/' :: joinSlash (s2 :: r2) ≠ []
      simp

theorem endsWithSlash_joinSlash : ∀ segs : List (List Char),
    (∀ s ∈ segs, GoodSeg s) → endsWithSlash (joinSlash segs) = false := by
  intro segs
  induction segs with
  | nil => intro _; rfl
  | cons s rest ih =>
    intro hg
    cases rest with
    | nil =>
      show endsWithSlash s = false
      exact endsWithSlash_noslash s (hg s (List.mem_cons_self s [])).2.1
    | cons s2 r2 =>
      show endsWithSlash (s ++ '/' :: joinSlash (s2 :: r2)) = false
      have hrest : ∀ x ∈ s2 :: r2, GoodSeg x := fun x hx =>
        hg x (List.mem_cons.mpr (Or.inr hx))
      have hjne : joinSlash (s2 :: r2) ≠ [] :=
        joinSlash_ne_nil (s2 :: r2) (by simp) hrest
      rw [endsWithSlash_append s _ (by simp),
        endsWithSlash_cons_ne '/' _ hjne]
      exact ih hrest

theorem normalizePath_idem (p : List Char) :
    normalizePath (normalizePath p) = normalizePath p := by
  have hgood : ∀ s ∈ collapseSegs (splitSlash p) [], GoodSeg s :=
    collapseSegs_good (splitSlash p) [] (splitSlash_noslash p) (by simp)
  by_cases hE : collapseSegs (splitSlash p) [] = []
  · have h1 : normalizePath p = ['/'] := by
      unfold normalizePath
      rw [hE]
      simp
    rw [h1]
    decide
  · obtain ⟨s0, ss0, hsegs⟩ :
        ∃ s0 ss0, collapseSegs (splitSlash p) [] = s0 :: ss0 := by
      cases h : collapseSegs (splitSlash p) [] with
      | nil => exact absurd h hE
      | cons a b => exact ⟨a, b, rfl⟩
    have hgood2 : ∀ s ∈ s0 :: ss0, GoodSeg s := by
      rw [← hsegs]
      exact hgood
    have hnoslash : ∀ s ∈ s0 :: ss0, '/' ∉ s := fun s hs => (hgood2 s hs).2.1
    have h1 : normalizePath p =
        '/' :: (joinSlash (s0 :: ss0) ++
          (if endsWithSlash p then ['/'] else [])) := by
      unfold normalizePath
      rw [hsegs]
      simp
    cases hT : endsWithSlash p with
    | false =>
      rw [hT] at h1
      simp only [if_neg Bool.false_ne_true, List.append_nil] at h1
      rw [h1]
      have hsplit : splitSlash ('/' :: joinSlash (s0 :: ss0)) =
          [] :: (s0 :: ss0) := by
        rw [splitSlash_cons_slash, splitSlash_join (s0 :: ss0) (by simp) hnoslash]
      have hcol : collapseSegs ([] :: (s0 :: ss0)) ([] : List (List Char)) =
          s0 :: ss0 := by
        rw [collapseSegs, if_pos (Or.inl rfl),
          collapseSegs_skip_all (s0 :: ss0) [] hgood2]
        simp
      have hews : endsWithSlash ('/' :: joinSlash (s0 :: ss0)) = false := by
        have hjne := joinSlash_ne_nil (s0 :: ss0) (by simp) hgood2
        rw [endsWithSlash_cons_ne '/' _ hjne]
        exact endsWithSlash_joinSlash (s0 :: ss0) hgood2
      unfold normalizePath
      rw [hsplit, hcol, hews]
      simp
    | true =>
      rw [hT] at h1
      simp only [if_pos] at h1
      rw [h1]
      have hsplit : splitSlash ('/' :: (joinSlash (s0 :: ss0) ++ ['/'])) =
          [] :: ((s0 :: ss0) ++ [[]]) := by
        rw [splitSlash_cons_slash]
        have := splitSlash_join_slash (s0 :: ss0) [] (by simp) hnoslash
        simpa [splitSlash] using this
      have hcol : collapseSegs ([] :: ((s0 :: ss0) ++ [[]]))
          ([] : List (List Char)) = s0 :: ss0 := by
        rw [collapseSegs, if_pos (Or.inl rfl), collapseSegs_append_empty,
          collapseSegs_skip_all (s0 :: ss0) [] hgood2]
        simp
      have hews : endsWithSlash ('/' :: (joinSlash (s0 :: ss0) ++ ['/'])) =
          true := by
        rw [endsWithSlash_cons_ne '/' _ (by simp), endsWithSlash_concat]
      unfold normalizePath
      rw [hsplit, hcol, hews]
      simp

/-- C8: the path normalizer is idempotent, and in particular
`CleanPath("") = "/"` and `CleanPath("/a//b/../c") = "/a/c"`. -/
theorem cleanPath_spec :
    (∀ s : String, CleanPath (CleanPath s) = CleanPath s) ∧
    CleanPath "" = "/" ∧
    CleanPath "/a//b/../c" = "/a/c" := by
  refine ⟨?_, by decide, by decide⟩
  intro s
  show String.mk (normalizePath (String.mk (normalizePath s.data)).data) =
    String.mk (normalizePath s.data)
  exact congrArg String.mk (normalizePath_idem s.data)
